import Mathlib

/-!
Verification of the function-combinator cluster of `src/arrays/index.ts`:
`compose`, `pipeFunctions`, `curry`, `promisify`, `chainAsync`,
`runPromisesInSeries`.

The embedding is shallow.  JavaScript values relevant to the claims are
modelled by the inductive type `JSVal` (with JS truthiness made explicit),
variadic callables by `List JSVal → JSVal`, settled promises by
`Except JSVal JSVal`, and the single-settlement
discipline of the promise constructor by an explicit three-state outcome type.  Each combinator is
translated from its source text; separate, clearly named `...Spec`
definitions transcribe the sentences of the specification where a claim compares
the two.
-/

set_option autoImplicit false

namespace TsUtils

/-- JavaScript values, restricted to the constructors the claims exercise.
`vundef` is `undefined`, `vnull` is `null`. -/
inductive JSVal : Type
  | vundef : JSVal
  | vnull : JSVal
  | vbool : Bool → JSVal
  | vnum : Int → JSVal
  | vstr : String → JSVal
  deriving DecidableEq, Repr

/-- JavaScript truthiness: `undefined`, `null`, `false`, `0` and `""` are
falsy, everything else modelled here is truthy.  This is the test performed by
`err ? reject(err) : resolve(result)` in the source. -/
def truthy : JSVal → Bool
  | .vundef => false
  | .vnull => false
  | .vbool b => b
  | .vnum n => n != 0
  | .vstr s => s != ""

/-- A variadic JavaScript callable: takes the full argument list, returns a
value. -/
def Func : Type := List JSVal → JSVal

/-- `Array.prototype.reduce` with no initial value: throws a `TypeError` on
the empty array (modelled as `none`), otherwise left-folds starting from the
first element. -/
def reduceNoInit {α : Type} (l : List α) (op : α → α → α) : Option α :=
  match l with
  | [] => none
  | x :: xs => some (xs.foldl op x)

/-- Source: `const compose = (...fns: Function[]) =>
  fns.reduce((f, g) => (...args: any[]) => f(g(...args)))`.
The reducer wraps the accumulated callable `f` around `g`: the new callable
passes its whole argument list to `g` and feeds the single result of `g` to `f`. -/
def compose (fns : List Func) : Option Func :=
  reduceNoInit fns (fun f g => fun args => f [g args])

/-- Source: `const pipeFunctions = (...fns: Function[]) =>
  fns.reduce((f, g) => (...args: any[]) => g(f(...args)))`. -/
def pipeFunctions (fns : List Func) : Option Func :=
  reduceNoInit fns (fun f g => fun args => g [f args])

/-- The reading the spec gives of right-to-left composition on a non-empty sequence
`f :: rest`: the rightmost function receives the original argument list and
every function to its left receives exactly the one value produced by the
function to its right. -/
def composeSpec (f : Func) (rest : List Func) (args : List JSVal) : JSVal :=
  match rest with
  | [] => f args
  | g :: gs => f [composeSpec g gs args]

/-- The reading the spec gives of left-to-right piping: thread the value `v` through
the remaining functions, each receiving exactly one argument. -/
def pipeThread (v : JSVal) : List Func → JSVal
  | [] => v
  | g :: gs => pipeThread (g [v]) gs

/-- The reading the spec gives of `pipeFunctions` on a non-empty sequence: the
leftmost function receives the original argument list, then the value is
threaded left to right. -/
def pipeSpec (f : Func) (rest : List Func) (args : List JSVal) : JSVal :=
  pipeThread (f args) rest

lemma composeSpec_combine (gs : List Func) (f g : Func) (args : List JSVal) :
    composeSpec (fun a => f [g a]) gs args = f [composeSpec g gs args] := by
  cases gs with
  | nil => rfl
  | cons h hs => rfl

lemma compose_foldl_eval (rest : List Func) (f : Func) (args : List JSVal) :
    (rest.foldl (fun f g => fun args => f [g args]) f) args
      = composeSpec f rest args := by
  induction rest generalizing f with
  | nil => rfl
  | cons g gs ih =>
      simp only [List.foldl_cons, composeSpec]
      rw [ih (fun a => f [g a]), composeSpec_combine]

lemma pipe_foldl_eval (rest : List Func) (f : Func) (args : List JSVal) :
    (rest.foldl (fun f g => fun args => g [f args]) f) args
      = pipeSpec f rest args := by
  induction rest generalizing f with
  | nil => rfl
  | cons g gs ih =>
      simp only [List.foldl_cons]
      rw [ih (fun a => g [f a])]
      rfl

/-! ### curry

Source:
`const curry = (fn: Function, arity = fn.length, ...args: any[]) =>
  arity <= args.length ? fn(...args) : curry.bind(null, fn, arity, ...args)`.

A call either invokes `fn` on the full accumulated argument list (when the
accumulated count has reached the arity) or returns a new callable that is
`curry` with `fn`, `arity` and the accumulated arguments bound.  The bound
callable is fully determined by that triple, so it is embedded as the
`pending` constructor carrying it; applying it to fresh arguments appends
them and re-enters `curry`.  The default `arity = fn.length` is the declared
parameter count of the source callable, which the caller supplies explicitly
here since callables are modelled variadically. -/

/-- Result of one `curry` call: either `fn` was invoked and produced a
value, or a new argument-accumulating callable was returned. -/
inductive CurryResult : Type
  | value : JSVal → CurryResult
  | pending : Func → Nat → List JSVal → CurryResult

/-- One evaluation of the source expression `curry(fn, arity, ...args)`. -/
def curry (fn : Func) (arity : Nat) (args : List JSVal) : CurryResult :=
  if arity ≤ args.length then .value (fn args) else .pending fn arity args

/-- Applying a `curry` result to one more argument group.  A `pending`
callable is `curry.bind(null, fn, arity, ...args)`, so calling it with
`newArgs` evaluates `curry(fn, arity, ...args, ...newArgs)`.  Calling a
non-callable value is a `TypeError` (`none`). -/
def curryApply (r : CurryResult) (newArgs : List JSVal) : Option CurryResult :=
  match r with
  | .value _ => none
  | .pending fn arity args => some (curry fn arity (args ++ newArgs))

/-- Applying a `curry` result to a sequence of argument groups, left to
right. -/
def curryApplyGroups (r : CurryResult) : List (List JSVal) → Option CurryResult
  | [] => some r
  | g :: gs =>
      match curryApply r g with
      | none => none
      | some s => curryApplyGroups s gs

lemma curryApplyGroups_cons (fn : Func) (k : Nat) (args g : List JSVal)
    (gs : List (List JSVal)) :
    curryApplyGroups (.pending fn k args) (g :: gs)
      = curryApplyGroups (curry fn k (args ++ g)) gs := rfl

lemma curryApplyGroups_pending (fn : Func) (k : Nat) (args : List JSVal)
    (groups : List (List JSVal)) (hne : groups ≠ [])
    (hg : ∀ g ∈ groups, g ≠ [])
    (hlen : args.length + groups.flatten.length = k) :
    curryApplyGroups (.pending fn k args) groups
      = some (.value (fn (args ++ groups.flatten))) := by
  induction groups generalizing args with
  | nil => exact absurd rfl hne
  | cons g gs ih =>
      cases gs with
      | nil =>
          have hk : k ≤ (args ++ g).length := by
            simp only [List.flatten_cons, List.flatten_nil, List.append_nil,
              List.length_append] at hlen
            simp only [List.length_append]
            omega
          rw [curryApplyGroups_cons, curry, if_pos hk]
          simp [curryApplyGroups]
      | cons g₂ gs₂ =>
          have hg₂ : g₂ ≠ [] := hg g₂ (by simp)
          have hrest : 0 < g₂.length := List.length_pos.mpr hg₂
          have hk : ¬ k ≤ (args ++ g).length := by
            simp only [List.flatten_cons, List.length_append] at hlen
            simp only [List.length_append]
            omega
          rw [curryApplyGroups_cons, curry, if_neg hk]
          have := ih (args ++ g) (by simp) (fun x hx => hg x (by simp [hx]))
            (by simp only [List.flatten_cons, List.length_append] at hlen ⊢; omega)
          rw [this]
          simp [List.append_assoc]

/-! ### promisify

Source:
`const promisify = (fn: Function) => (...args: any[]) =>
  new Promise((resolve, reject) =>
    fn(...args, (err, result) => (err ? reject(err) : resolve(result))))`.

The promise is modelled by its settlement state with single-assignment
semantics: once `resolved` or `rejected`, later `resolve`/`reject` calls are
ignored.  The wrapped callable `fn` is modelled by the sequence of
`(err, result)` pairs with which it invokes the completion callback it was
handed (the well-behaved case is a single invocation). -/

/-- The settlement state of a promise. -/
inductive POutcome : Type
  | pending : POutcome
  | resolved : JSVal → POutcome
  | rejected : JSVal → POutcome
  deriving DecidableEq, Repr

/-- `resolve`: settles only a pending promise. -/
def resolveP (st : POutcome) (v : JSVal) : POutcome :=
  match st with
  | .pending => .resolved v
  | s => s

/-- `reject`: settles only a pending promise. -/
def rejectP (st : POutcome) (e : JSVal) : POutcome :=
  match st with
  | .pending => .rejected e
  | s => s

/-- One invocation of the completion callback of `promisify`:
`(err, result) => (err ? reject(err) : resolve(result))`. -/
def promisifyCallback (st : POutcome) (er : JSVal × JSVal) : POutcome :=
  if truthy er.1 then rejectP st er.1 else resolveP st er.2

/-- `promisify(fn)(...args)`: the wrapped callable receives the arguments
plus the completion callback; the resulting promise state is the fold of
the callback invocations `fn` performs. -/
def promisify (fn : List JSVal → List (JSVal × JSVal)) (args : List JSVal) :
    POutcome :=
  (fn args).foldl promisifyCallback .pending

/-! ### runPromisesInSeries

Source:
`const runPromisesInSeries = (ps: any) =>
  ps.reduce((p, next) => p.then(next), Promise.resolve())`.

A settled promise is `Except JSVal JSVal` (`ok` = fulfilled, `error` =
rejected); `Promise.resolve()` is fulfilled with `undefined`.  `p.then(next)`
invokes `next` with the fulfilled value and adopts its promise, or passes a
rejection through without invoking `next`.  `runSeriesTraced` additionally
records the indices of the functions that were actually invoked. -/

/-- `p.then(next)`: invoke `next` only on fulfillment; rejections pass
through untouched. -/
def promiseThen (p : Except JSVal JSVal) (next : JSVal → Except JSVal JSVal) :
    Except JSVal JSVal :=
  match p with
  | .ok v => next v
  | .error e => .error e

/-- `runPromisesInSeries(ps)`: the reduce over `then`, seeded with
`Promise.resolve()` (fulfilled with `undefined`). -/
def runPromisesInSeries (ps : List (JSVal → Except JSVal JSVal)) :
    Except JSVal JSVal :=
  ps.foldl promiseThen (Except.ok JSVal.vundef)

/-- One step of the traced series: the function is invoked (and its index
recorded) exactly when the accumulated promise is fulfilled, mirroring
`then`. -/
def seriesStep (acc : Except JSVal JSVal × List Nat)
    (nf : Nat × (JSVal → Except JSVal JSVal)) :
    Except JSVal JSVal × List Nat :=
  match acc with
  | (.ok v, tr) => (nf.2 v, tr ++ [nf.1])
  | (.error e, tr) => (.error e, tr)

/-- `runPromisesInSeries` instrumented with the list of invoked indices. -/
def runSeriesTraced (ps : List (JSVal → Except JSVal JSVal)) :
    Except JSVal JSVal × List Nat :=
  (ps.enum).foldl seriesStep (Except.ok JSVal.vundef, [])

/-- The pipeline reading the spec gives of the series, threading the fulfilled value
left to right from position `i`, stopping at the first rejection; returns
the settled outcome and the invoked indices. -/
def seriesSpec (v : JSVal) (i : Nat) :
    List (JSVal → Except JSVal JSVal) → Except JSVal JSVal × List Nat
  | [] => (.ok v, [])
  | f :: fs =>
      match f v with
      | .ok w => ((seriesSpec w (i + 1) fs).1, i :: (seriesSpec w (i + 1) fs).2)
      | .error e => (.error e, [i])

lemma seriesStep_error (l : List (Nat × (JSVal → Except JSVal JSVal)))
    (e : JSVal) (tr : List Nat) :
    l.foldl seriesStep (Except.error e, tr) = (Except.error e, tr) := by
  induction l generalizing tr with
  | nil => rfl
  | cons nf l ih => exact ih tr

lemma seriesStep_ok (fs : List (JSVal → Except JSVal JSVal)) (i : Nat)
    (v : JSVal) (tr : List Nat) :
    (fs.enumFrom i).foldl seriesStep (Except.ok v, tr)
      = ((seriesSpec v i fs).1, tr ++ (seriesSpec v i fs).2) := by
  induction fs generalizing i v tr with
  | nil => simp [List.enumFrom, seriesSpec]
  | cons f fs ih =>
      simp only [List.enumFrom, List.foldl_cons, seriesStep, seriesSpec]
      cases hfv : f v with
      | ok w => rw [ih]; simp
      | error e => rw [seriesStep_error]

/-- The traced series agrees with the spec pipeline started at `undefined`
and index `0`. -/
lemma runSeriesTraced_eq_spec (ps : List (JSVal → Except JSVal JSVal)) :
    runSeriesTraced ps = seriesSpec JSVal.vundef 0 ps := by
  have h := seriesStep_ok ps 0 JSVal.vundef []
  simpa [runSeriesTraced, List.enum] using h

/-- The traced series computes the same settled outcome as the direct
translation of the source. -/
lemma runSeriesTraced_fst (ps : List (JSVal → Except JSVal JSVal)) :
    (runSeriesTraced ps).1 = runPromisesInSeries ps := by
  have h :
      ∀ (l : List (JSVal → Except JSVal JSVal)) (i : Nat)
        (p : Except JSVal JSVal) (tr : List Nat),
        ((l.enumFrom i).foldl seriesStep (p, tr)).1 = l.foldl promiseThen p := by
    intro l
    induction l with
    | nil => intro i p tr; rfl
    | cons f fs ih =>
        intro i p tr
        cases p with
        | ok v => simpa [List.enumFrom, seriesStep, promiseThen] using ih (i + 1) (f v) (tr ++ [i])
        | error e =>
            simpa [List.enumFrom, seriesStep, promiseThen] using
              ih (i + 1) (Except.error e) tr
  simpa [runSeriesTraced, runPromisesInSeries, List.enum] using
    h ps 0 (Except.ok JSVal.vundef) []

/-! ### chainAsync

Source:
`const chainAsync = (fns: Function[]) => {
  let curr = 0
  const next = () => fns[curr++](next)
  next()
}`.

Each step receives the `next` continuation; per the documented contract a
step either invokes it (exactly once, to advance the chain) or does not.  A
step is therefore embedded as the `Bool` telling whether it synchronously
invokes its continuation.  `chainNext fns curr` runs `next()` at counter
value `curr` and returns the indices of the steps that were invoked together
with whether a `TypeError` was raised (`fns[curr]` is `undefined` past the
end, and calling it throws; the exception unwinds synchronously through
every active frame). -/

def chainNext (fns : List Bool) (curr : Nat) : List Nat × Bool :=
  match h : fns[curr]? with
  | none => ([], true)
  | some true =>
      (curr :: (chainNext fns (curr + 1)).1, (chainNext fns (curr + 1)).2)
  | some false => ([curr], false)
termination_by fns.length - curr
decreasing_by
  all_goals
    have hlt : curr < fns.length := by
      rcases List.getElem?_eq_some.mp h with ⟨hl, _⟩
      exact hl
    omega

/-- `chainAsync(fns)`: start the chain with the counter at `0`.  First
component: indices of the steps invoked, in invocation order.  Second
component: whether a `TypeError` was raised. -/
def chainAsync (fns : List Bool) : List Nat × Bool := chainNext fns 0

lemma chainNext_of_none {fns : List Bool} {curr : Nat}
    (h : fns[curr]? = none) : chainNext fns curr = ([], true) := by
  rw [chainNext.eq_def, h]

lemma chainNext_of_true {fns : List Bool} {curr : Nat}
    (h : fns[curr]? = some true) :
    chainNext fns curr
      = (curr :: (chainNext fns (curr + 1)).1, (chainNext fns (curr + 1)).2) := by
  rw [chainNext.eq_def, h]

lemma chainNext_of_false {fns : List Bool} {curr : Nat}
    (h : fns[curr]? = some false) : chainNext fns curr = ([curr], false) := by
  rw [chainNext.eq_def, h]

/-- The invoked steps form a contiguous run starting at the current
counter. -/
lemma chainNext_trace_range (fns : List Bool) (curr : Nat) :
    ∃ k, (chainNext fns curr).1 = List.range' curr k ∧ k ≤ fns.length - curr := by
  match h : fns[curr]? with
  | none =>
      exact ⟨0, by simp [chainNext_of_none h], by omega⟩
  | some true =>
      have hlt : curr < fns.length := (List.getElem?_eq_some.mp h).1
      obtain ⟨k, htr, hk⟩ := chainNext_trace_range fns (curr + 1)
      exact ⟨k + 1, by
        rw [chainNext_of_true h]
        simp [htr, List.range'_succ], by omega⟩
  | some false =>
      have hlt : curr < fns.length := (List.getElem?_eq_some.mp h).1
      exact ⟨1, by simp [chainNext_of_false h, List.range'], by omega⟩
termination_by fns.length - curr
decreasing_by
  have hlt : curr < fns.length := (List.getElem?_eq_some.mp h).1
  omega

/-- A step is invoked exactly when it exists and every earlier step from the
current counter on exists and invokes its continuation. -/
lemma chainNext_mem (fns : List Bool) (curr : Nat) (j : Nat) :
    j ∈ (chainNext fns curr).1
      ↔ curr ≤ j ∧ j < fns.length
          ∧ ∀ m, curr ≤ m → m < j → fns[m]? = some true := by
  match h : fns[curr]? with
  | none =>
      have hl : fns.length ≤ curr := List.getElem?_eq_none_iff.mp h
      rw [chainNext_of_none h]
      simp only [List.not_mem_nil, false_iff]
      rintro ⟨h1, h2, _⟩
      omega
  | some true =>
      have hlt : curr < fns.length := (List.getElem?_eq_some.mp h).1
      rw [chainNext_of_true h]
      simp only [List.mem_cons]
      constructor
      · rintro (rfl | hj)
        · exact ⟨Nat.le_refl _, hlt, fun m hm hmj => by omega⟩
        · obtain ⟨h1, h2, h3⟩ := (chainNext_mem fns (curr + 1) j).mp hj
          refine ⟨by omega, h2, fun m hm hmj => ?_⟩
          rcases Nat.eq_or_lt_of_le hm with rfl | hlt'
          · exact h
          · exact h3 m (by omega) hmj
      · rintro ⟨h1, h2, h3⟩
        rcases Nat.eq_or_lt_of_le h1 with rfl | hlt'
        · exact Or.inl rfl
        · exact Or.inr ((chainNext_mem fns (curr + 1) j).mpr
            ⟨by omega, h2, fun m hm hmj => h3 m (by omega) hmj⟩)
  | some false =>
      have hlt : curr < fns.length := (List.getElem?_eq_some.mp h).1
      rw [chainNext_of_false h]
      simp only [List.mem_singleton]
      constructor
      · rintro rfl
        exact ⟨Nat.le_refl _, hlt, fun m hm hmj => by omega⟩
      · rintro ⟨h1, h2, h3⟩
        by_contra hne
        have hcj : curr < j := by omega
        have : fns[curr]? = some true := h3 curr (Nat.le_refl _) hcj
        rw [h] at this
        simp at this
termination_by fns.length - curr
decreasing_by
  all_goals
    have hlt : curr < fns.length := (List.getElem?_eq_some.mp h).1
    omega

/-- A `TypeError` is raised exactly when every step from the current counter
to the end of the list invokes its continuation (vacuously so past the
end). -/
lemma chainNext_err (fns : List Bool) (curr : Nat) :
    (chainNext fns curr).2 = true
      ↔ ∀ m, curr ≤ m → m < fns.length → fns[m]? = some true := by
  match h : fns[curr]? with
  | none =>
      have hl : fns.length ≤ curr := List.getElem?_eq_none_iff.mp h
      rw [chainNext_of_none h]
      simp only [true_iff]
      intro m hm hml
      omega
  | some true =>
      have hlt : curr < fns.length := (List.getElem?_eq_some.mp h).1
      rw [chainNext_of_true h]
      rw [chainNext_err fns (curr + 1)]
      constructor
      · intro h3 m hm hml
        rcases Nat.eq_or_lt_of_le hm with rfl | hlt'
        · exact h
        · exact h3 m (by omega) hml
      · intro h3 m hm hml
        exact h3 m (by omega) hml
  | some false =>
      have hlt : curr < fns.length := (List.getElem?_eq_some.mp h).1
      rw [chainNext_of_false h]
      simp only [Bool.false_eq_true, false_iff]
      intro h3
      have : fns[curr]? = some true := h3 curr (Nat.le_refl _) hlt
      rw [h] at this
      simp at this
termination_by fns.length - curr
decreasing_by
  have hlt : curr < fns.length := (List.getElem?_eq_some.mp h).1
  omega

/-- Models the `prev => resolve(prev + 1)` step of the series example:
numeric increment. -/
def jsAddOne : JSVal → JSVal
  | .vnum n => .vnum (n + 1)
  | _ => .vundef

lemma seriesSpec_trace_bounds (fs : List (JSVal → Except JSVal JSVal))
    (v : JSVal) (i : Nat) (j : Nat) (hj : j ∈ (seriesSpec v i fs).2) :
    i ≤ j ∧ j < i + fs.length := by
  induction fs generalizing v i with
  | nil => simp [seriesSpec] at hj
  | cons f fs ih =>
      simp only [seriesSpec] at hj
      cases hfv : f v with
      | ok w =>
          rw [hfv] at hj
          simp only [List.mem_cons] at hj
          rcases hj with rfl | hj
          · simp
          · have := ih w (i + 1) hj
            constructor <;> [omega; (simp only [List.length_cons]; omega)]
      | error e =>
          rw [hfv] at hj
          simp only [List.mem_singleton] at hj
          subst hj
          simp

/-- Every index the traced series invokes lies within the list. -/
lemma runSeriesTraced_trace_lt (ps : List (JSVal → Except JSVal JSVal))
    (j : Nat) (hj : j ∈ (runSeriesTraced ps).2) : j < ps.length := by
  rw [runSeriesTraced_eq_spec] at hj
  have := seriesSpec_trace_bounds ps JSVal.vundef 0 j hj
  omega

/-! ## Claims -/

/-- C1: the callable returned by `compose(f1, ..., fn)` (n ≥ 1), applied to
`args`, returns `f1(f2(...fn(...args)))`: the rightmost function receives
the original argument list and every other function receives exactly the one
value produced by the function to its right. -/
theorem claim_c1_compose_right_to_left (f : Func) (rest : List Func)
    (args : List JSVal) :
    ∃ F, compose (f :: rest) = some F ∧ F args = composeSpec f rest args := by
  refine ⟨_, rfl, ?_⟩
  exact compose_foldl_eval rest f args

/-- C2: the callable returned by `pipeFunctions(f1, ..., fn)` (n ≥ 1),
applied to `args`, returns `fn(...(f2(f1(...args))))`: the leftmost function
receives the original argument list and each later function receives exactly
the one value produced by the function to its left. -/
theorem claim_c2_pipe_left_to_right (f : Func) (rest : List Func)
    (args : List JSVal) :
    ∃ F, pipeFunctions (f :: rest) = some F ∧ F args = pipeSpec f rest args := by
  refine ⟨_, rfl, ?_⟩
  exact pipe_foldl_eval rest f args

/-- C3: for a callable of arity `k` and any split of `k` arguments into
consecutive non-empty groups, repeatedly applying the callable returned by
`curry(fn, k)` to the groups invokes `fn` exactly once, on the full
accumulated argument list, at the step where the accumulated count reaches
the arity, and yields `fn(a1, ..., ak)`; every earlier step returns a new
argument-accumulating callable. -/
theorem claim_c3_curry_grouping (fn : Func) (k : Nat)
    (groups : List (List JSVal)) (hne : groups ≠ [])
    (hg : ∀ g ∈ groups, g ≠ []) (hlen : groups.flatten.length = k) :
    curryApplyGroups (curry fn k []) groups
      = some (CurryResult.value (fn groups.flatten)) := by
  obtain ⟨g, gs, rfl⟩ := List.exists_cons_of_ne_nil hne
  have hg1 : g ≠ [] := hg g (by simp)
  have hpos : 0 < k := by
    have := List.length_pos.mpr hg1
    simp only [List.flatten_cons, List.length_append] at hlen
    omega
  have hstart : curry fn k [] = CurryResult.pending fn k [] := by
    rw [curry, if_neg]
    simp only [List.length_nil]
    omega
  rw [hstart, curryApplyGroups_pending fn k [] (g :: gs) (by simp) hg
    (by simpa using hlen)]
  simp

/-- C4 as stated is false: the completion callback tests the error with
JavaScript truthiness, not against `null`.  Invoked with the non-null error
`false` and result `42`, the promise fulfills with `42` instead of
failing. -/
theorem claim_c4_counterexample :
    promisify (fun _ => [(JSVal.vbool false, JSVal.vnum 42)]) []
        = POutcome.resolved (JSVal.vnum 42)
      ∧ JSVal.vbool false ≠ JSVal.vnull := by
  refine ⟨rfl, by decide⟩

/-- C4 (amended): when the wrapped callable invokes the completion callback
once with `(e, r)`, the promise rejects with exactly `e` when `e` is truthy
and fulfills with exactly `r` when `e` is falsy (`null`, `undefined`,
`false`, `0`, the empty string). -/
theorem claim_c4_promisify_truthiness (fn : List JSVal → List (JSVal × JSVal))
    (args : List JSVal) (e r : JSVal) (h : fn args = [(e, r)]) :
    promisify fn args
      = if truthy e then POutcome.rejected e else POutcome.resolved r := by
  rw [promisify, h]
  simp only [List.foldl_cons, List.foldl_nil, promisifyCallback]
  cases htr : truthy e with
  | true => simp [htr, rejectP]
  | false => simp [htr, resolveP]

theorem claim_c4_promisify_truthiness_witness :
    (promisify (fun _ => [(JSVal.vnull, JSVal.vnum 42)]) []
        = if truthy JSVal.vnull then POutcome.rejected JSVal.vnull
          else POutcome.resolved (JSVal.vnum 42))
      ∧ (promisify (fun _ => [(JSVal.vstr "boom", JSVal.vundef)]) []
        = if truthy (JSVal.vstr "boom") then POutcome.rejected (JSVal.vstr "boom")
          else POutcome.resolved JSVal.vundef) :=
  ⟨claim_c4_promisify_truthiness _ [] JSVal.vnull (JSVal.vnum 42) rfl,
   claim_c4_promisify_truthiness _ [] (JSVal.vstr "boom") JSVal.vundef rfl⟩

theorem claim_c3_curry_grouping_witness :
    curryApplyGroups (curry (fun args => args.headD JSVal.vundef) 3 [])
        [[JSVal.vnum 1], [JSVal.vnum 2, JSVal.vnum 3]]
      = some (CurryResult.value (JSVal.vnum 1)) :=
  claim_c3_curry_grouping (fun args => args.headD JSVal.vundef) 3
    [[JSVal.vnum 1], [JSVal.vnum 2, JSVal.vnum 3]] (by simp) (by decide) rfl

/-- C5: `runPromisesInSeries` is the value pipeline: it invokes the
functions in list order (trace indices ascend from `0`), invokes each
function only once the previous promise has fulfilled, hands it the
previous fulfilled value (the first receives `undefined` from
`Promise.resolve()`), and settles to the last promise; on the three-step
increment example it settles to `3` having invoked steps `0`, `1`, `2`. -/
theorem claim_c5_series_pipeline :
    (∀ ps, (runSeriesTraced ps).1 = runPromisesInSeries ps)
    ∧ (∀ ps, runSeriesTraced ps = seriesSpec JSVal.vundef 0 ps)
    ∧ runSeriesTraced [fun _ => Except.ok (JSVal.vnum 1),
        fun p => Except.ok (jsAddOne p), fun p => Except.ok (jsAddOne p)]
      = (Except.ok (JSVal.vnum 3), [0, 1, 2]) :=
  ⟨runSeriesTraced_fst, runSeriesTraced_eq_spec, rfl⟩

/-- C6: if every function before position `i` fulfills, and the function at
position `i` rejects with `e`, then `runPromisesInSeries` rejects with
exactly `e` and no function past position `i` is ever invoked (the trace
stops at `i`, whatever the tail holds). -/
theorem claim_c6_series_fail_fast (ps : List (JSVal → Except JSVal JSVal))
    (f : JSVal → Except JSVal JSVal) (gs : List (JSVal → Except JSVal JSVal))
    (v e : JSVal) (h1 : (runSeriesTraced ps).1 = Except.ok v)
    (h2 : f v = Except.error e) :
    runSeriesTraced (ps ++ f :: gs)
        = (Except.error e, (runSeriesTraced ps).2 ++ [ps.length])
      ∧ ∀ j ∈ (runSeriesTraced (ps ++ f :: gs)).2, j ≤ ps.length := by
  have happ : (ps ++ f :: gs).enum
      = ps.enum ++ (f :: gs).enumFrom ps.length := by
    simp [List.enum, List.enumFrom_append]
  have hfold : runSeriesTraced (ps ++ f :: gs)
      = ((f :: gs).enumFrom ps.length).foldl seriesStep (runSeriesTraced ps) := by
    rw [runSeriesTraced, happ, List.foldl_append]
    rfl
  have hmain : runSeriesTraced (ps ++ f :: gs)
      = (Except.error e, (runSeriesTraced ps).2 ++ [ps.length]) := by
    rw [hfold]
    rcases hrs : runSeriesTraced ps with ⟨p0, tr0⟩
    rw [hrs] at h1
    simp only at h1
    subst h1
    simp only [List.enumFrom, List.foldl_cons, seriesStep, h2]
    rw [seriesStep_error]
  refine ⟨hmain, ?_⟩
  rw [hmain]
  intro j hj
  simp only [List.mem_append, List.mem_singleton] at hj
  rcases hj with hj | rfl
  · exact Nat.le_of_lt (runSeriesTraced_trace_lt ps j hj)
  · exact Nat.le_refl _

theorem claim_c6_series_fail_fast_witness :
    runSeriesTraced (([fun _ => Except.ok (JSVal.vnum 1)]
          : List (JSVal → Except JSVal JSVal))
        ++ (fun _ => Except.error (JSVal.vstr "boom"))
          :: [fun _ => Except.ok (JSVal.vnum 9)])
      = (Except.error (JSVal.vstr "boom"),
          (runSeriesTraced [fun _ => Except.ok (JSVal.vnum 1)]).2
            ++ [List.length ([fun _ => Except.ok (JSVal.vnum 1)]
                  : List (JSVal → Except JSVal JSVal))]) :=
  (claim_c6_series_fail_fast [fun _ => Except.ok (JSVal.vnum 1)]
    (fun _ => Except.error (JSVal.vstr "boom"))
    [fun _ => Except.ok (JSVal.vnum 9)] (JSVal.vnum 1) (JSVal.vstr "boom")
    rfl rfl).1

/-- C7: in `chainAsync`, a step at position `i + 1` is invoked exactly when
the step at position `i` was invoked and invokes its continuation; the
invoked steps are `0, 1, ..., k - 1` in that order, each exactly once; with
three steps that each call their continuation, all three run in order. -/
theorem claim_c7_chainAsync_ordering (fns : List Bool) (hne : fns ≠ []) :
    (∀ i, i + 1 < fns.length →
        ((i + 1) ∈ (chainAsync fns).1
          ↔ i ∈ (chainAsync fns).1 ∧ fns[i]? = some true))
    ∧ (∃ k, k ≤ fns.length ∧ (chainAsync fns).1 = List.range k)
    ∧ (chainAsync [true, true, true]).1 = [0, 1, 2] := by
  refine ⟨?_, ?_, ?_⟩
  · intro i hi
    rw [chainAsync, chainNext_mem, chainNext_mem]
    constructor
    · rintro ⟨-, h2, h3⟩
      have hfi : fns[i]? = some true := h3 i (Nat.zero_le _) (by omega)
      exact ⟨⟨Nat.zero_le _, by omega, fun m hm hmi => h3 m hm (by omega)⟩, hfi⟩
    · rintro ⟨⟨-, h2, h3⟩, hfi⟩
      refine ⟨Nat.zero_le _, hi, fun m hm hmi => ?_⟩
      rcases Nat.lt_or_ge m i with hlt | hge
      · exact h3 m hm hlt
      · have hmi' : m = i := by omega
        subst hmi'
        exact hfi
  · obtain ⟨k, htr, hk⟩ := chainNext_trace_range fns 0
    refine ⟨k, by omega, ?_⟩
    rw [chainAsync, htr, List.range_eq_range']
  · have e3 : chainNext [true, true, true] 3 = ([], true) :=
      chainNext_of_none rfl
    have e2 : chainNext [true, true, true] 2 = ([2], true) := by
      rw [chainNext_of_true rfl, e3]
    have e1 : chainNext [true, true, true] 1 = ([1, 2], true) := by
      rw [chainNext_of_true rfl, e2]
    have e0 : chainNext [true, true, true] 0 = ([0, 1, 2], true) := by
      rw [chainNext_of_true rfl, e1]
    rw [chainAsync, e0]

theorem claim_c7_chainAsync_ordering_witness :
    ((1 + 1) ∈ (chainAsync [true, true, true]).1
        ↔ 1 ∈ (chainAsync [true, true, true]).1
            ∧ ([true, true, true] : List Bool)[1]? = some true)
    ∧ (chainAsync [true, true, true]).1 = [0, 1, 2] :=
  ⟨(claim_c7_chainAsync_ordering [true, true, true] (by simp)).1 1 (by simp),
   (claim_c7_chainAsync_ordering [true, true, true] (by simp)).2.2⟩

/-- C8 as stated is false at the empty sequence: `compose()` and
`pipeFunctions()` do not produce a callable whose application then fails;
the `reduce` with no initial value throws a `TypeError` at composition time,
so no callable is returned at all. -/
theorem claim_c8_counterexample :
    compose [] = none ∧ pipeFunctions [] = none := ⟨rfl, rfl⟩

/-- C8 (amended): `compose` and `pipeFunctions` fail — with the `TypeError`
that `reduce` throws on an empty array with no initial value, at composition
time rather than at application time — exactly when the sequence of
callables is empty; no identity-function fallback exists. -/
theorem claim_c8_empty_composition_fails (fns : List Func) :
    (compose fns = none ↔ fns = [])
      ∧ (pipeFunctions fns = none ↔ fns = []) := by
  cases fns <;> simp [compose, pipeFunctions, reduceNoInit]

/-- C9: `chainAsync` raises a synchronous `TypeError` (calling
`fns[curr]` past the end of the list) exactly when the step list is empty or
the final step runs and invokes its continuation. -/
theorem claim_c9_chainAsync_typeerror (fns : List Bool) :
    (chainAsync fns).2 = true
      ↔ fns = []
        ∨ ((fns.length - 1) ∈ (chainAsync fns).1
            ∧ fns[fns.length - 1]? = some true) := by
  rw [chainAsync, chainNext_err, chainNext_mem]
  by_cases hfe : fns = []
  · subst hfe
    simp
  · have hlen : 0 < fns.length := List.length_pos.mpr hfe
    constructor
    · intro h
      exact Or.inr ⟨⟨Nat.zero_le _, by omega,
        fun m hm hml => h m hm (by omega)⟩,
        h (fns.length - 1) (Nat.zero_le _) (by omega)⟩
    · rintro (rfl | ⟨⟨-, hlt, hall⟩, hlast⟩)
      · exact absurd rfl hfe
      · intro m hm hml
        rcases Nat.lt_or_ge m (fns.length - 1) with hlt' | hge
        · exact hall m hm hlt'
        · have hmeq : m = fns.length - 1 := by omega
          subst hmeq
          exact hlast

/-- C10: `compose(f)` and `pipeFunctions(f)` return `f` itself — `reduce`
over a one-element array with no initial value yields that element without
invoking the reducer — so the single-function composition is the very same
callable, for variadic `f` included. -/
theorem claim_c10_single_function_identity (f : Func) :
    compose [f] = some f ∧ pipeFunctions [f] = some f := ⟨rfl, rfl⟩

end TsUtils
